import Mathlib

/-!
Shallow embedding of the contribution-statistics core of `src/stats.ts`
(classes `DateCalculator`, `ContributionProcessor`, `GridBuilder`,
`Renderer`).

Modelling conventions, traced from the JavaScript/TypeScript source:

* A JavaScript number that can be `NaN` is modelled as `Option Int`
  (`none` = `NaN`); all numeric values occurring in this code path are
  integers (millisecond timestamps of local midnights, day counts,
  commit counts), so `Int` suffices for the non-`NaN` values.
* A `Date` value is represented by the millisecond timestamp of its
  local midnight, i.e. the value of
  `getBeginningOfDay(date).getTime()`; an invalid date (an unparsable
  timestamp string) has `NaN` as its time value, hence is `none`.
* A JavaScript `Map` is an insertion-ordered association list with
  SameValueZero key equality; on `Option Int` keys, SameValueZero
  coincides with decidable equality (`NaN` equals `NaN` as a Map key).
  `set` overwrites the first (unique) matching entry in place or
  appends a fresh entry at the end; `get` returns the value of the
  matching entry or `undefined` (modelled by `Option`).
-/

/-- CONFIG.DAYS_IN_LAST_SIX_MONTHS in `stats.ts`. -/
def DAYS_IN_LAST_SIX_MONTHS : Int := 183

/-- CONFIG.WEEKS_IN_LAST_SIX_MONTHS in `stats.ts`. -/
def WEEKS_IN_LAST_SIX_MONTHS : Int := 26

/-- CONFIG.OUT_OF_RANGE in `stats.ts`, the sentinel for dates too old. -/
def OUT_OF_RANGE : Int := 99999

/-- CONFIG.DAYS_PER_WEEK in `stats.ts`. -/
def DAYS_PER_WEEK : Int := 7

/-- Milliseconds per day, the `1000 * 60 * 60 * 24` of `countDaysSinceDate`. -/
def msPerDay : Int := 86400000

/-- A JavaScript number that may be `NaN`: `none` is `NaN`. -/
abbrev JSNum := Option Int

/-- JavaScript `+` on possibly-`NaN` numbers: `NaN` propagates. -/
def jsAdd : JSNum → JSNum → JSNum
  | some a, some b => some (a + b)
  | _, _ => none

/-- JavaScript `Math.floor(k / d)` on a possibly-`NaN` numerator with a
positive integer denominator: floored division, `NaN` propagates. -/
def jsFloorDiv (k : JSNum) (d : Int) : JSNum :=
  match k with
  | some a => some (Int.fdiv a d)
  | none => none

/-- JavaScript `k % d` (remainder with the sign of the dividend, i.e.
truncated division remainder) on a possibly-`NaN` operand. -/
def jsRem (k : JSNum) (d : Int) : JSNum :=
  match k with
  | some a => some (Int.tmod a d)
  | none => none

/-- JavaScript `Math.ceil(a / b)` for integer `a` and positive integer
`b`, as used on the exact millisecond difference in
`countDaysSinceDate`. -/
def jsCeilDiv (a b : Int) : Int := -(Int.fdiv (-a) b)

/-- The `CommitMap` of `stats.ts` (`Map<number, number>`): an
insertion-ordered association list from possibly-`NaN` day keys to
counts. -/
abbrev CommitMap := List (JSNum × Int)

/-- JavaScript `Map.prototype.get` on the association list: the first
entry with the requested key, `undefined` (`none`) otherwise. -/
def mapGet (m : CommitMap) (k : JSNum) : Option Int :=
  match m with
  | [] => none
  | (k₀, v₀) :: rest => if k₀ = k then some v₀ else mapGet rest k

/-- JavaScript `Map.prototype.set` on the association list: overwrite
the first entry with the requested key in place, or append a fresh
entry at the end. -/
def mapSet (m : CommitMap) (k : JSNum) (v : Int) : CommitMap :=
  match m with
  | [] => [(k, v)]
  | (k₀, v₀) :: rest =>
      if k₀ = k then (k, v) :: rest else (k₀, v₀) :: mapSet rest k v

/-- `DateCalculator.countDaysSinceDate`: the ceiling of the millisecond
difference of the two local midnights divided by one day, replaced by
the sentinel `OUT_OF_RANGE` when it exceeds 183.  `now` is the
midnight timestamp of the current day; the date argument is the
midnight timestamp of the commit date, `none` when the commit
timestamp string was unparsable (an invalid `Date`, whose arithmetic
is `NaN`; `NaN > 183` is false, so the `NaN` itself is returned). -/
def countDaysSinceDate (now : Int) (date : JSNum) : JSNum :=
  match date with
  | none => none
  | some d =>
      let diffDays := jsCeilDiv (now - d) msPerDay
      some (if DAYS_IN_LAST_SIX_MONTHS < diffDays then OUT_OF_RANGE else diffDays)

/-- `DateCalculator.calcWeekOffset`: `7 − weekday`, where `weekday` is
`new Date().getDay()` (Sunday = 0 .. Saturday = 6). -/
def calcWeekOffset (weekday : Int) : Int := DAYS_PER_WEEK - weekday

/-- One commit record as consumed by `fillCommitsFromRepo`: the
`author_email` field and the local-midnight timestamp of
`new Date(commit.date)` (`none` when the date string is unparsable). -/
structure CommitEvent where
  author_email : String
  date : JSNum
deriving DecidableEq

/-- The body of the `forEach` loop of `fillCommitsFromRepo`: if the
author email matches exactly, compute `daysAgo`; unless it is (strictly
equals) the sentinel, increment the entry at `daysAgo + offset`
(`(commits.get(day) || 0) + 1`; counts are never negative or `NaN`, so
`|| 0` only replaces a missing entry or an existing `0` by `0`). -/
def processCommit (email : String) (now offset : Int) (commits : CommitMap)
    (c : CommitEvent) : CommitMap :=
  if c.author_email = email then
    let daysAgo := countDaysSinceDate now c.date
    if daysAgo ≠ some OUT_OF_RANGE then
      let day := jsAdd daysAgo (some offset)
      mapSet commits day ((mapGet commits day).getD 0 + 1)
    else commits
  else commits

/-- A repository as seen by `fillCommitsFromRepo`: either `git.log()`
raises (`none`), or it yields the ordered list of commit records. -/
abbrev Repo := Option (List CommitEvent)

/-- `ContributionProcessor.fillCommitsFromRepo`: on a failing
repository the `catch` block silently leaves the map unchanged;
otherwise every commit record is processed in order with the week
offset computed once before the loop. -/
def fillCommitsFromRepo (email : String) (now weekday : Int) (repo : Repo)
    (commits : CommitMap) : CommitMap :=
  match repo with
  | none => commits
  | some events => events.foldl (processCommit email now (calcWeekOffset weekday)) commits

/-- The initialization loop of `processAllRepositories`
(`for (let i = 183; i > 0; i--) commits.set(i, 0)`): `initCommitsAux n m`
performs the iterations for `i = n` down to `i = 1` starting from map
`m`. -/
def initCommitsAux : Nat → CommitMap → CommitMap
  | 0, m => m
  | n + 1, m => initCommitsAux n (mapSet m (some ((n : Int) + 1)) 0)

/-- The freshly initialized commit map of `processAllRepositories`:
keys 183 down to 1, each set to 0. -/
def initCommits : CommitMap := initCommitsAux 183 []

/-- `ContributionProcessor.processAllRepositories`: with an empty
repository list, report and return an empty map; otherwise initialize
the map with days 1..183 at 0 and fold `fillCommitsFromRepo` over the
repositories in their given order. -/
def processAllRepositories (email : String) (now weekday : Int)
    (repos : List Repo) : CommitMap :=
  if repos = [] then []
  else repos.foldl (fun m r => fillCommitsFromRepo email now weekday r m) initCommits

/-- Insert a key into an ascending-sorted key list (`none`, i.e. `NaN`,
is placed first; a sort with the comparator `(a, b) => a - b` never
sees `NaN` keys in runs where every timestamp parses, and its order is
engine-dependent otherwise). -/
def insertKeyAsc (k : JSNum) : List JSNum → List JSNum
  | [] => [k]
  | k₀ :: rest =>
      match k, k₀ with
      | some a, some b => if a ≤ b then k :: k₀ :: rest else k₀ :: insertKeyAsc k rest
      | _, _ => k :: k₀ :: rest

/-- `GridBuilder.sortCommitKeys`: all keys of the map in ascending
numeric order (`Array.from(commits.keys()).sort((a, b) => a - b)`). -/
def sortCommitKeys (commits : CommitMap) : List JSNum :=
  (commits.map Prod.fst).foldr insertKeyAsc []

/-- The `ColumnMap` of `stats.ts` (`Map<number, Column>`): week number
to committed column.  Committed week numbers are always proper
integers (`k % 7 === 6` never holds for `NaN`), so keys are `Int`. -/
abbrev ColumnMap := List (Int × List Int)

/-- `Map.prototype.get` on the column map. -/
def colsGet (cols : ColumnMap) (w : Int) : Option (List Int) :=
  match cols with
  | [] => none
  | (w₀, c₀) :: rest => if w₀ = w then some c₀ else colsGet rest w

/-- The mutable state of the loop in `GridBuilder.buildColumns`.  The
JavaScript `cols.set(week, col)` stores a reference to the current
array `col`, which keeps receiving pushes until the next
`dayInWeek === 0` reset allocates a fresh array.  `flushed` holds the
entries whose array has been retired by a later reset (their contents
are final); `current` is the live array `col`; `live` lists the weeks
whose map entry references the live array. -/
structure BuildState where
  flushed : ColumnMap
  current : List Int
  live : List Int
deriving DecidableEq

/-- One iteration of the `for (const k of keys)` loop of
`buildColumns`: on `dayInWeek === 0` retire the live array (the
entries referencing it become final) and start a fresh one; push
`commits.get(k) || 0`; on `dayInWeek === 6` set the entry for `week`
to (a reference to) the live array, superseding any previous entry for
that week. -/
def buildStep (commits : CommitMap) (s : BuildState) (k : JSNum) : BuildState :=
  let dayInWeek := jsRem k DAYS_PER_WEEK
  let s₁ : BuildState :=
    if dayInWeek = some 0 then
      ⟨s.flushed ++ s.live.map (fun w => (w, s.current)), [], []⟩
    else s
  let s₂ : BuildState := ⟨s₁.flushed, s₁.current ++ [(mapGet commits k).getD 0], s₁.live⟩
  if dayInWeek = some 6 then
    match jsFloorDiv k DAYS_PER_WEEK with
    | some w =>
        ⟨s₂.flushed.filter (fun p => ¬ p.1 = w),
         s₂.current,
         if w ∈ s₂.live then s₂.live else s₂.live ++ [w]⟩
    | none => s₂
  else s₂

/-- Materialize the final `ColumnMap`: the retired entries followed by
the entries still referencing the live array, whose final contents are
the current buffer. -/
def finalizeBuild (s : BuildState) : ColumnMap :=
  s.flushed ++ s.live.map (fun w => (w, s.current))

/-- `GridBuilder.buildColumns`: fold the loop body over the key list
starting from an empty map and an empty buffer, then read off the
final contents of every committed entry. -/
def buildColumns (keys : List JSNum) (commits : CommitMap) : ColumnMap :=
  finalizeBuild (keys.foldl (buildStep commits) ⟨[], [], []⟩)

/-- The five chalk styles produced by `Renderer.getContributionColor`,
in source order: the `bgBlue.white` today highlight, then the four
count bands and the `bgBlack.white` zero band. -/
inductive CellStyle where
  | todayHighlight
  | zeroBand
  | lowBand
  | mediumBand
  | highBand
  | maxBand
deriving DecidableEq

/-- `Renderer.getContributionColor`: the today highlight wins
unconditionally; otherwise the inclusive thresholds 0, 3
(CONTRIBUTION_LEVELS.LOW), 6 (MEDIUM), 9 (HIGH) pick the band. -/
def getContributionColor (val : Int) (isToday : Bool) : CellStyle :=
  if isToday then .todayHighlight
  else if val = 0 then .zeroBand
  else if val ≤ 3 then .lowBand
  else if val ≤ 6 then .mediumBand
  else if val ≤ 9 then .highBand
  else .maxBand

/-- One printed cell of the grid: the value handed to `printCell` and
whether the today flag was set. -/
structure RenderedCell where
  value : Int
  isToday : Bool
deriving DecidableEq

/-- The style a rendered cell is printed with. -/
def cellStyle (c : RenderedCell) : CellStyle := getContributionColor c.value c.isToday

/-- The cell printed by the inner loop body of `Renderer.printGrid` at
week index `i` (the column loop counter) and day row `j`: when the
column exists (any committed array, even empty, is truthy) and
`i === 0 && j === calcWeekOffset() - 1`, the cell is
`col[j] !== undefined ? col[j] : 0` with the today flag; otherwise
`col[j]` when `col.length > j` (no holes, so `col[j]` is then
defined); in every remaining case a plain 0. -/
def renderCell (cols : ColumnMap) (weekday : Int) (i : Int) (j : Nat) : RenderedCell :=
  match colsGet cols i with
  | some col =>
      if i = 0 ∧ (j : Int) = calcWeekOffset weekday - 1 then
        ⟨col.getD j 0, true⟩
      else if j < col.length then ⟨col.getD j 0, false⟩
      else ⟨0, false⟩
  | none => ⟨0, false⟩

/-- The week indices visited by the column loop of `printGrid`
(`for (let i = WEEKS_IN_LAST_SIX_MONTHS + 1; i >= 0; i--)`):
27 down to 0. -/
def printGridWeekIndices : List Int :=
  (List.range 28).map (fun n => 27 - (n : Int))

/-- The day key an event increments: `some day` when the author email
matches exactly and `daysAgo` is not (strictly equal to) the sentinel,
`none` (no increment) otherwise. -/
def commitDay (email : String) (now offset : Int) (c : CommitEvent) : Option JSNum :=
  if c.author_email = email ∧ countDaysSinceDate now c.date ≠ some OUT_OF_RANGE then
    some (jsAdd (countDaysSinceDate now c.date) (some offset))
  else none

/-- Boolean test: does event `c` increment day key `k`? -/
def eventHits (email : String) (now offset : Int) (k : JSNum) (c : CommitEvent) : Bool :=
  decide (commitDay email now offset c = some k)

/-- The number of increments repository `r` contributes to day key `k`. -/
def repoHits (email : String) (now offset : Int) (k : JSNum) : Repo → Nat
  | none => 0
  | some events => events.countP (eventHits email now offset k)

/-- The weeks present in the column map represented by a build state:
either already retired or still referencing the live buffer. -/
def weekMem (s : BuildState) (w : Int) : Prop :=
  w ∈ s.flushed.map Prod.fst ∨ w ∈ s.live

/-- Key `k` commits week `w`: its day-in-week is 6 and its week number
is `w`. -/
def commitsWeekAt (k : JSNum) (w : Int) : Prop :=
  jsRem k DAYS_PER_WEEK = some 6 ∧ jsFloorDiv k DAYS_PER_WEEK = some w

/-- A commit map with the complete week keys 0..6 holding counts
1..7, the first `buildColumns` test scenario of the specification. -/
def sevenKeyMap : CommitMap :=
  [(some 0, 1), (some 1, 2), (some 2, 3), (some 3, 4), (some 4, 5), (some 5, 6), (some 6, 7)]

/-- A commit map with only the keys 0, 1, 2 (never reaching
day-in-week 6), the second `buildColumns` test scenario. -/
def threeKeyMap : CommitMap :=
  [(some 0, 1), (some 1, 2), (some 2, 3)]

/-- The aggregated map of the specification scenario for the today
cell: a single repository with a single commit dated today (midnight
timestamp 0) by the matching author, run on a day with the given
weekday. -/
def todayScenarioMap (weekday : Int) : CommitMap :=
  processAllRepositories "a@b.c" 0 weekday [some [⟨"a@b.c", some 0⟩]]

/-- The cell of the rendered grid at week-number 0 and row
`calcWeekOffset − 1` for the today scenario. -/
def todayScenarioCell (weekday : Int) : RenderedCell :=
  renderCell
    (buildColumns (sortCommitKeys (todayScenarioMap weekday)) (todayScenarioMap weekday))
    weekday 0 (calcWeekOffset weekday - 1).toNat

/-- The aggregated map of a run (on a Sunday) over one repository
whose log is empty: exactly the initialized map. -/
def emptyLogRun : CommitMap :=
  processAllRepositories "a@b.c" 0 0 [some []]

/-- The aggregated map of a run over one repository whose single
commit matches the author email but has an unparsable timestamp. -/
def nanEventRun : CommitMap :=
  processAllRepositories "a@b.c" 0 3 [some [⟨"a@b.c", none⟩]]

/-! ## Helper lemmas about the Map model -/

theorem mapGet_mapSet (m : CommitMap) (k k₁ : JSNum) (v : Int) :
    mapGet (mapSet m k v) k₁ = if k = k₁ then some v else mapGet m k₁ := by
  induction m with
  | nil =>
      simp only [mapSet, mapGet]
  | cons p rest ih =>
      obtain ⟨k₀, v₀⟩ := p
      simp only [mapSet]
      by_cases h₀ : k₀ = k
      · subst h₀
        by_cases h₁ : k₀ = k₁ <;> simp [mapGet, h₁]
      · simp only [if_neg h₀, mapGet, ih]
        by_cases h₁ : k₀ = k₁
        · subst h₁
          have hne : k ≠ k₀ := fun h => h₀ h.symm
          simp [if_neg hne]
        · simp [h₁]

theorem mapGet_mem {m : CommitMap} {k : JSNum} {v : Int}
    (h : mapGet m k = some v) : (k, v) ∈ m := by
  induction m with
  | nil => simp [mapGet] at h
  | cons p rest ih =>
      obtain ⟨k₀, v₀⟩ := p
      simp only [mapGet] at h
      by_cases h₀ : k₀ = k
      · subst h₀
        simp only [if_pos rfl] at h
        injection h with h
        subst h
        exact List.mem_cons_self _ _
      · exact List.mem_cons_of_mem _ (ih (by simpa [h₀] using h))

theorem mem_mapSet {m : CommitMap} {k : JSNum} {v : Int} {p : JSNum × Int}
    (h : p ∈ mapSet m k v) : p = (k, v) ∨ p ∈ m := by
  induction m with
  | nil => simpa [mapSet] using h
  | cons q rest ih =>
      obtain ⟨k₀, v₀⟩ := q
      simp only [mapSet] at h
      by_cases h₀ : k₀ = k
      · rw [if_pos h₀] at h
        rcases List.mem_cons.mp h with h₁ | h₁
        · exact Or.inl h₁
        · exact Or.inr (List.mem_cons_of_mem _ h₁)
      · rw [if_neg h₀] at h
        rcases List.mem_cons.mp h with h₁ | h₁
        · exact Or.inr (h₁ ▸ List.mem_cons_self _ _)
        · rcases ih h₁ with h₂ | h₂
          · exact Or.inl h₂
          · exact Or.inr (List.mem_cons_of_mem _ h₂)

/-! ## Helper lemmas about the date arithmetic -/

theorem countDaysSinceDate_le {now d dd : Int}
    (h : countDaysSinceDate now (some d) = some dd) (hs : dd ≠ OUT_OF_RANGE) :
    dd ≤ DAYS_IN_LAST_SIX_MONTHS := by
  simp only [countDaysSinceDate, Option.some.injEq] at h
  split at h
  · exact absurd h.symm hs
  · omega

/-! ## Characterization of one aggregation step -/

theorem processCommit_get (email : String) (now offset : Int) (m : CommitMap)
    (c : CommitEvent) (k : JSNum) :
    mapGet (processCommit email now offset m c) k =
      if commitDay email now offset c = some k then
        some ((mapGet m k).getD 0 + 1)
      else mapGet m k := by
  unfold processCommit commitDay
  by_cases he : c.author_email = email
  · by_cases hs : countDaysSinceDate now c.date ≠ some OUT_OF_RANGE
    · simp only [if_pos he, if_pos hs, if_pos (And.intro he hs), mapGet_mapSet,
        Option.some.injEq]
      by_cases hk : jsAdd (countDaysSinceDate now c.date) (some offset) = k <;> simp [hk]
    · simp [he, hs]
  · simp [he]

theorem processCommit_isSome (email : String) (now offset : Int) (m : CommitMap)
    (c : CommitEvent) (k : JSNum) (h : (mapGet m k).isSome = true) :
    (mapGet (processCommit email now offset m c) k).isSome = true := by
  rw [processCommit_get]
  split
  · simp
  · exact h

theorem foldl_processCommit_get (email : String) (now offset : Int)
    (events : List CommitEvent) (m : CommitMap) (k : JSNum) :
    mapGet (events.foldl (processCommit email now offset) m) k =
      if events.countP (eventHits email now offset k) = 0 then mapGet m k
      else some ((mapGet m k).getD 0 + events.countP (eventHits email now offset k)) := by
  induction events generalizing m with
  | nil => simp
  | cons c rest ih =>
      simp only [List.foldl_cons, List.countP_cons]
      rw [ih]
      by_cases h : eventHits email now offset k c = true
      · have hc : commitDay email now offset c = some k := of_decide_eq_true h
        rw [processCommit_get, if_pos hc]
        simp only [h, if_true, Option.getD_some]
        by_cases h₀ : rest.countP (eventHits email now offset k) = 0 <;>
          · simp [h₀]
            try omega
      · have hc : ¬ commitDay email now offset c = some k := by
          simpa [eventHits] using h
        rw [processCommit_get, if_neg hc]
        simp [h]

theorem fillCommitsFromRepo_get (email : String) (now weekday : Int) (repo : Repo)
    (m : CommitMap) (k : JSNum) :
    mapGet (fillCommitsFromRepo email now weekday repo m) k =
      if repoHits email now (calcWeekOffset weekday) k repo = 0 then mapGet m k
      else some ((mapGet m k).getD 0 +
        repoHits email now (calcWeekOffset weekday) k repo) := by
  cases repo with
  | none => simp [fillCommitsFromRepo, repoHits]
  | some events => simp [fillCommitsFromRepo, repoHits, foldl_processCommit_get]

theorem foldl_fillCommits_get (email : String) (now weekday : Int) (repos : List Repo)
    (m : CommitMap) (k : JSNum) :
    mapGet (repos.foldl (fun acc r => fillCommitsFromRepo email now weekday r acc) m) k =
      if (repos.map (repoHits email now (calcWeekOffset weekday) k)).sum = 0 then mapGet m k
      else some ((mapGet m k).getD 0 +
        (repos.map (repoHits email now (calcWeekOffset weekday) k)).sum) := by
  induction repos generalizing m with
  | nil => simp
  | cons r rest ih =>
      simp only [List.foldl_cons, List.map_cons, List.sum_cons]
      rw [ih, fillCommitsFromRepo_get]
      by_cases h₀ : repoHits email now (calcWeekOffset weekday) k r = 0
      · simp [h₀]
      · by_cases h₁ : (rest.map (repoHits email now (calcWeekOffset weekday) k)).sum = 0 <;>
          · simp [h₀, h₁]
            try omega

/-! ## Characterization of the initialized map -/

theorem mapGet_initCommitsAux_none (n : Nat) (m : CommitMap) :
    mapGet (initCommitsAux n m) none = mapGet m none := by
  induction n generalizing m with
  | zero => rfl
  | succ n ih =>
      rw [initCommitsAux, ih, mapGet_mapSet]
      simp

theorem mapGet_initCommitsAux_some (n : Nat) (m : CommitMap) (j : Int) :
    mapGet (initCommitsAux n m) (some j) =
      if 1 ≤ j ∧ j ≤ (n : Int) then some 0 else mapGet m (some j) := by
  induction n generalizing m with
  | zero =>
      rw [initCommitsAux, if_neg]
      push_cast
      omega
  | succ n ih =>
      rw [initCommitsAux, ih, mapGet_mapSet]
      by_cases h : 1 ≤ j ∧ j ≤ (n : Int)
      · rw [if_pos h, if_pos (by push_cast; omega)]
      · rw [if_neg h]
        by_cases hk : ((n : Int) + 1) = j
        · subst hk
          rw [if_pos rfl, if_pos (by push_cast; omega)]
        · have hne : (some ((n : Int) + 1) : JSNum) ≠ some j := by
            simpa using hk
          rw [if_neg hne, if_neg (by push_cast; omega)]

theorem mapGet_initCommits_some (i : Int) :
    mapGet initCommits (some i) = if 1 ≤ i ∧ i ≤ 183 then some 0 else none := by
  rw [initCommits, mapGet_initCommitsAux_some]
  norm_num
  rfl

theorem mapGet_initCommits_none : mapGet initCommits none = none := by
  rw [initCommits, mapGet_initCommitsAux_none]
  rfl

/-! ## Week membership in the built grid -/

theorem buildStep_nan (commits : CommitMap) (s : BuildState) :
    buildStep commits s none =
      ⟨s.flushed, s.current ++ [(mapGet commits none).getD 0], s.live⟩ := by
  simp [buildStep, jsRem]

theorem buildStep_mod0 (commits : CommitMap) (s : BuildState) {a : Int}
    (h : Int.tmod a DAYS_PER_WEEK = 0) :
    buildStep commits s (some a) =
      ⟨s.flushed ++ s.live.map (fun w => (w, s.current)),
       [(mapGet commits (some a)).getD 0], []⟩ := by
  have h6 : ¬ (jsRem (some a) DAYS_PER_WEEK = some 6) := by
    simp [jsRem, h]
  have h0 : jsRem (some a) DAYS_PER_WEEK = some 0 := by
    simp [jsRem, h]
  simp [buildStep, h0, h6]

theorem buildStep_mid (commits : CommitMap) (s : BuildState) {a : Int}
    (hm0 : ¬ Int.tmod a DAYS_PER_WEEK = 0) (hm6 : ¬ Int.tmod a DAYS_PER_WEEK = 6) :
    buildStep commits s (some a) =
      ⟨s.flushed, s.current ++ [(mapGet commits (some a)).getD 0], s.live⟩ := by
  have h6 : ¬ (jsRem (some a) DAYS_PER_WEEK = some 6) := by
    simp [jsRem, hm6]
  have h0 : ¬ (jsRem (some a) DAYS_PER_WEEK = some 0) := by
    simp [jsRem, hm0]
  simp [buildStep, h0, h6]

theorem buildStep_mod6 (commits : CommitMap) (s : BuildState) {a : Int}
    (h : Int.tmod a DAYS_PER_WEEK = 6) :
    buildStep commits s (some a) =
      ⟨s.flushed.filter (fun p => ¬ p.1 = Int.fdiv a DAYS_PER_WEEK),
       s.current ++ [(mapGet commits (some a)).getD 0],
       if Int.fdiv a DAYS_PER_WEEK ∈ s.live then s.live
       else s.live ++ [Int.fdiv a DAYS_PER_WEEK]⟩ := by
  have h6 : jsRem (some a) DAYS_PER_WEEK = some 6 := by
    simp [jsRem, h]
  have h0 : ¬ (jsRem (some a) DAYS_PER_WEEK = some 0) := by
    simp [jsRem, h]
  simp [buildStep, h0, h6, jsFloorDiv]

theorem commitsWeekAt_some (a : Int) (w : Int) :
    commitsWeekAt (some a) w ↔
      Int.tmod a DAYS_PER_WEEK = 6 ∧ Int.fdiv a DAYS_PER_WEEK = w := by
  simp [commitsWeekAt, jsRem, jsFloorDiv]

theorem weekMem_buildStep (commits : CommitMap) (s : BuildState) (k : JSNum) (w : Int) :
    weekMem (buildStep commits s k) w ↔ weekMem s w ∨ commitsWeekAt k w := by
  cases k with
  | none =>
      rw [buildStep_nan]
      have hc : ¬ commitsWeekAt none w := by
        simp [commitsWeekAt, jsRem]
      simp [weekMem, hc]
  | some a =>
      by_cases hm0 : Int.tmod a DAYS_PER_WEEK = 0
      · rw [buildStep_mod0 commits s hm0]
        have hc : ¬ commitsWeekAt (some a) w := by
          rw [commitsWeekAt_some]
          rintro ⟨h6, -⟩
          omega
        simp [weekMem, hc, List.map_map, Function.comp]
      · by_cases hm6 : Int.tmod a DAYS_PER_WEEK = 6
        · rw [buildStep_mod6 commits s hm6]
          have hc : commitsWeekAt (some a) w ↔ Int.fdiv a DAYS_PER_WEEK = w := by
            rw [commitsWeekAt_some]
            simp [hm6]
          rw [hc]
          unfold weekMem
          simp only
          have hlive : w ∈ (if Int.fdiv a DAYS_PER_WEEK ∈ s.live then s.live
              else s.live ++ [Int.fdiv a DAYS_PER_WEEK]) ↔
              (w ∈ s.live ∨ w = Int.fdiv a DAYS_PER_WEEK) := by
            split
            · constructor
              · exact fun h => Or.inl h
              · rintro (h | rfl)
                · exact h
                · assumption
            · simp [List.mem_append]
          have hflt : w ∈ (s.flushed.filter
                (fun p => ¬ p.1 = Int.fdiv a DAYS_PER_WEEK)).map Prod.fst ↔
              (w ∈ s.flushed.map Prod.fst ∧ ¬ w = Int.fdiv a DAYS_PER_WEEK) := by
            simp only [List.mem_map, List.mem_filter, decide_not, Bool.not_eq_true,
              decide_eq_false_iff_not]
            constructor
            · rintro ⟨p, ⟨hp, hne⟩, rfl⟩
              exact ⟨⟨p, hp, rfl⟩, by simpa using hne⟩
            · rintro ⟨⟨p, hp, rfl⟩, hne⟩
              exact ⟨p, ⟨hp, by simpa using hne⟩, rfl⟩
          rw [hlive, hflt]
          constructor
          · rintro (⟨hf, -⟩ | hl | rfl)
            · exact Or.inl (Or.inl hf)
            · exact Or.inl (Or.inr hl)
            · exact Or.inr rfl
          · by_cases hw : w = Int.fdiv a DAYS_PER_WEEK
            · intro h
              exact Or.inr (Or.inr hw)
            · rintro ((hf | hl) | he)
              · exact Or.inl ⟨hf, hw⟩
              · exact Or.inr (Or.inl hl)
              · exact absurd he.symm hw
        · rw [buildStep_mid commits s hm0 hm6]
          have hc : ¬ commitsWeekAt (some a) w := by
            rw [commitsWeekAt_some]
            rintro ⟨h6, -⟩
            exact hm6 h6
          simp [weekMem, hc]

theorem weekMem_foldl (commits : CommitMap) (keys : List JSNum) (s : BuildState) (w : Int) :
    weekMem (keys.foldl (buildStep commits) s) w ↔
      weekMem s w ∨ ∃ k ∈ keys, commitsWeekAt k w := by
  induction keys generalizing s with
  | nil => simp
  | cons k rest ih =>
      rw [List.foldl_cons, ih, weekMem_buildStep]
      simp only [List.mem_cons]
      constructor
      · rintro ((hs | hc) | ⟨k₁, hk₁, hc₁⟩)
        · exact Or.inl hs
        · exact Or.inr ⟨k, Or.inl rfl, hc⟩
        · exact Or.inr ⟨k₁, Or.inr hk₁, hc₁⟩
      · rintro (hs | ⟨k₁, hk₁ | hk₁, hc₁⟩)
        · exact Or.inl (Or.inl hs)
        · exact Or.inl (Or.inr (hk₁ ▸ hc₁))
        · exact Or.inr ⟨k₁, hk₁, hc₁⟩

theorem colsGet_isSome_iff (cols : ColumnMap) (w : Int) :
    (∃ col, colsGet cols w = some col) ↔ w ∈ cols.map Prod.fst := by
  induction cols with
  | nil => simp [colsGet]
  | cons p rest ih =>
      obtain ⟨w₀, c₀⟩ := p
      simp only [colsGet, List.map_cons, List.mem_cons]
      by_cases h : w₀ = w
      · subst h
        simp
      · simp only [if_neg h, ih]
        constructor
        · exact fun hm => Or.inr hm
        · rintro (he | hm)
          · exact absurd he.symm h
          · exact hm

theorem finalizeBuild_weeks (s : BuildState) :
    (finalizeBuild s).map Prod.fst = s.flushed.map Prod.fst ++ s.live := by
  simp [finalizeBuild, List.map_map, Function.comp_def]

theorem buildColumns_week_exists (keys : List JSNum) (commits : CommitMap) (w : Int) :
    (∃ col, colsGet (buildColumns keys commits) w = some col) ↔
      ∃ k ∈ keys, commitsWeekAt k w := by
  rw [buildColumns, colsGet_isSome_iff, finalizeBuild_weeks, List.mem_append]
  have h := weekMem_foldl commits keys ⟨[], [], []⟩ w
  unfold weekMem at h
  rw [h]
  simp


/-! ## Invariant preservation through aggregation -/

theorem mem_initCommitsAux {n : Nat} {m : CommitMap} {p : JSNum × Int}
    (h : p ∈ initCommitsAux n m) :
    (∃ j : Int, 1 ≤ j ∧ j ≤ n ∧ p = (some j, 0)) ∨ p ∈ m := by
  induction n generalizing m with
  | zero => exact Or.inr h
  | succ n ih =>
      rw [initCommitsAux] at h
      rcases ih h with ⟨j, h₁, h₂, h₃⟩ | hmem
      · exact Or.inl ⟨j, h₁, by push_cast; omega, h₃⟩
      · rcases mem_mapSet hmem with h₁ | h₁
        · exact Or.inl ⟨(n : Int) + 1, by omega, by push_cast; omega, h₁⟩
        · exact Or.inr h₁

theorem commitDay_bound {email : String} {now offset : Int} {c : CommitEvent}
    {day : JSNum} (h : commitDay email now offset c = some day) :
    day = none ∨ ∃ i : Int, day = some i ∧ i ≤ 183 + offset := by
  unfold commitDay at h
  split at h
  · rename_i hcond
    injection h with h
    subst h
    cases hd : c.date with
    | none => simp [jsAdd, countDaysSinceDate, hd]
    | some t =>
        right
        obtain ⟨dd, hdd⟩ : ∃ dd, countDaysSinceDate now (some t) = some dd := ⟨_, rfl⟩
        have hne : dd ≠ OUT_OF_RANGE := by
          intro he
          apply hcond.2
          rw [hd, hdd, he]
        have hle := countDaysSinceDate_le hdd hne
        refine ⟨dd + offset, ?_, by unfold DAYS_IN_LAST_SIX_MONTHS at hle; omega⟩
        rw [hdd]
        rfl
  · exact Option.noConfusion h

theorem processCommit_preserves {email : String} {now offset : Int}
    {m : CommitMap} {c : CommitEvent} (P : JSNum × Int → Prop)
    (hP : ∀ day : JSNum, commitDay email now offset c = some day →
      P (day, (mapGet m day).getD 0 + 1))
    (hm : ∀ p ∈ m, P p) :
    ∀ p ∈ processCommit email now offset m c, P p := by
  intro p hp
  simp only [processCommit] at hp
  split at hp
  · split at hp
    · rename_i he hs
      rcases mem_mapSet hp with h₁ | h₁
      · subst h₁
        exact hP _ (by simp [commitDay, he, hs])
      · exact hm _ h₁
    · exact hm _ hp
  · exact hm _ hp

theorem foldl_preserves {α : Type} (P : CommitMap → Prop)
    (f : CommitMap → α → CommitMap) (hf : ∀ m a, P m → P (f m a)) :
    ∀ (l : List α) (m : CommitMap), P m → P (l.foldl f m) := by
  intro l
  induction l with
  | nil => exact fun m hm => hm
  | cons a rest ih => exact fun m hm => ih (f m a) (hf m a hm)

/-! ## The claims -/

/-- C5: for every date whose midnight-to-midnight ceiling day
difference from today is between 0 and 183 inclusive,
`countDaysSinceDate` returns exactly that ceiling, with a date equal
to today yielding 0; for a difference of 184 or more it returns the
sentinel 99999. -/
theorem C5_days_since (now d : Int) :
    (0 ≤ jsCeilDiv (now - d) msPerDay → jsCeilDiv (now - d) msPerDay ≤ 183 →
      countDaysSinceDate now (some d) = some (jsCeilDiv (now - d) msPerDay)) ∧
    (d = now → countDaysSinceDate now (some d) = some 0) ∧
    (184 ≤ jsCeilDiv (now - d) msPerDay →
      countDaysSinceDate now (some d) = some OUT_OF_RANGE) := by
  refine ⟨?_, ?_, ?_⟩
  · intro h0 h183
    simp only [countDaysSinceDate, DAYS_IN_LAST_SIX_MONTHS]
    rw [if_neg (by omega)]
  · rintro rfl
    have h : jsCeilDiv (d - d) msPerDay = 0 := by
      simp [jsCeilDiv, Int.fdiv]
    simp only [countDaysSinceDate, DAYS_IN_LAST_SIX_MONTHS, h]
    rw [if_neg (by omega)]
  · intro h
    simp only [countDaysSinceDate, DAYS_IN_LAST_SIX_MONTHS]
    rw [if_pos (by omega)]

/-- Witness for C5 at concrete dates: today yields 0, a date 183 days
back yields 183, and a date 184 days back yields the sentinel. -/
theorem C5_days_since_witness :
    countDaysSinceDate 0 (some 0) = some 0 ∧
    countDaysSinceDate 0 (some (-(183 * msPerDay))) = some (jsCeilDiv (0 - -(183 * msPerDay)) msPerDay) ∧
    countDaysSinceDate 0 (some (-(184 * msPerDay))) = some OUT_OF_RANGE := by
  refine ⟨(C5_days_since 0 0).2.1 rfl, ?_, ?_⟩
  · exact (C5_days_since 0 (-(183 * msPerDay))).1 (by decide) (by decide)
  · exact (C5_days_since 0 (-(184 * msPerDay))).2.2 (by decide)

/-- C4: an event increments exactly the entry at
`daysSince(timestamp) + weekOffset()` by one, creating it if absent,
precisely when the author email matches exactly and `daysSince` is not
the sentinel; a mismatching email or a sentinel leaves the map
untouched; concretely, a matching commit 183 days ago is counted (at a
key exceeding 183) and one 184 days ago is excluded. -/
theorem C4_increment_rule (email : String) (now weekday : Int) (m : CommitMap)
    (c : CommitEvent) :
    (¬ c.author_email = email → processCommit email now (calcWeekOffset weekday) m c = m) ∧
    (countDaysSinceDate now c.date = some OUT_OF_RANGE →
      processCommit email now (calcWeekOffset weekday) m c = m) ∧
    (c.author_email = email → ¬ countDaysSinceDate now c.date = some OUT_OF_RANGE →
      ∀ k : JSNum,
        mapGet (processCommit email now (calcWeekOffset weekday) m c) k =
          if jsAdd (countDaysSinceDate now c.date) (some (calcWeekOffset weekday)) = k
          then some ((mapGet m k).getD 0 + 1)
          else mapGet m k) ∧
    (mapGet (processCommit "a@b.c" 0 (calcWeekOffset 3) []
        ⟨"a@b.c", some (-(183 * msPerDay))⟩) (some 187) = some 1) ∧
    (processCommit "a@b.c" 0 (calcWeekOffset 3) []
        ⟨"a@b.c", some (-(184 * msPerDay))⟩ = []) := by
  refine ⟨?_, ?_, ?_, by decide, by decide⟩
  · intro h
    simp [processCommit, h]
  · intro h
    simp [processCommit, h]
  · intro he hs k
    rw [processCommit_get]
    have hc : commitDay email now (calcWeekOffset weekday) c =
        some (jsAdd (countDaysSinceDate now c.date) (some (calcWeekOffset weekday))) := by
      simp [commitDay, he, hs]
    rw [hc]
    by_cases hk : jsAdd (countDaysSinceDate now c.date) (some (calcWeekOffset weekday)) = k
    · rw [if_pos (by simpa using hk), if_pos hk]
    · rw [if_neg (by simpa using hk), if_neg hk]

/-- Witness for C4: a mismatching email leaves the empty map empty,
and a matching commit dated today lands at the key equal to the week
offset. -/
theorem C4_increment_rule_witness :
    processCommit "a@b.c" 0 (calcWeekOffset 3) [] ⟨"x@y.z", some 0⟩ = [] ∧
    mapGet (processCommit "a@b.c" 0 (calcWeekOffset 3) [(some 5, 2)] ⟨"a@b.c", some 0⟩)
      (some 4) = some 1 := by
  constructor
  · exact (C4_increment_rule "a@b.c" 0 3 [] ⟨"x@y.z", some 0⟩).1 (by decide)
  · have h := (C4_increment_rule "a@b.c" 0 3 [(some 5, 2)] ⟨"a@b.c", some 0⟩).2.2.1
      rfl (by decide) (some 4)
    simpa using h

/-- C3 (code bug): the specification says an event with an unparsable
timestamp is skipped, adding no entry and incrementing no count.  The
code instead lets the invalid date flow through as `NaN`
(`Math.ceil(NaN)` is `NaN`, `NaN > 183` is false, `NaN !== 99999` is
true) and stores an entry under the `NaN` key.  Evaluating the
embedded code on a repository whose first event has an unparsable
timestamp: the offending event adds the entry `NaN ↦ 1`, while the
second, well-formed event of the same repository is still processed
normally (today with weekday 3 gives day key 0 + 4 = 4). -/
theorem C3_nan_key_stored :
    fillCommitsFromRepo "a@b.c" 0 3
      (some [⟨"a@b.c", none⟩, ⟨"a@b.c", some 0⟩]) [] =
      [(none, 1), (some 4, 1)] := by
  decide

/-- C6: `buildColumns` follows the commit rule — a fresh buffer starts
exactly at day-in-week 0, the appended value is `map[key]` (or 0 if
absent), and a week is committed exactly when day-in-week 6 is
traversed; hence complete keys 0..6 with counts 1..7 yield exactly the
single column `0 ↦ [1,…,7]`, and keys 0..2 alone yield an empty
grid. -/
theorem C6_build_columns :
    (∀ (commits : CommitMap) (s : BuildState) (k : JSNum),
      (buildStep commits s k).current =
        (if jsRem k DAYS_PER_WEEK = some 0 then [] else s.current) ++
          [(mapGet commits k).getD 0]) ∧
    (∀ (commits : CommitMap) (s : BuildState) (k : JSNum) (w : Int),
      weekMem (buildStep commits s k) w ↔ weekMem s w ∨ commitsWeekAt k w) ∧
    buildColumns (sortCommitKeys sevenKeyMap) sevenKeyMap = [(0, [1, 2, 3, 4, 5, 6, 7])] ∧
    buildColumns (sortCommitKeys threeKeyMap) threeKeyMap = [] := by
  refine ⟨?_, weekMem_buildStep, by decide, by decide⟩
  intro commits s k
  cases k with
  | none =>
      rw [buildStep_nan]
      have h : ¬ (jsRem (none : JSNum) DAYS_PER_WEEK = some 0) := by
        simp [jsRem]
      rw [if_neg h]
  | some a =>
      by_cases hm0 : Int.tmod a DAYS_PER_WEEK = 0
      · rw [buildStep_mod0 commits s hm0, if_pos (by simp [jsRem, hm0])]
        simp
      · by_cases hm6 : Int.tmod a DAYS_PER_WEEK = 6
        · rw [buildStep_mod6 commits s hm6,
            if_neg (show ¬ (jsRem (some a) DAYS_PER_WEEK = some 0) by simp [jsRem, hm6])]
        · rw [buildStep_mid commits s hm0 hm6, if_neg (by simp [jsRem, hm0])]

/-- C8: a repository whose history retrieval raises contributes zero
events — processing it leaves the map unchanged — and aggregation
continues with all remaining repositories in their order instead of
aborting: the run over the list with the failing repository equals the
run over the list without it. -/
theorem C8_repo_failure (email : String) (now weekday : Int) :
    (∀ m : CommitMap, fillCommitsFromRepo email now weekday none m = m) ∧
    (∀ before after : List Repo, before ++ after ≠ [] →
      processAllRepositories email now weekday (before ++ none :: after) =
        processAllRepositories email now weekday (before ++ after)) := by
  constructor
  · intro m
    rfl
  · intro before after h
    unfold processAllRepositories
    rw [if_neg (by simp), if_neg h, List.foldl_append, List.foldl_cons, List.foldl_append]
    rfl

/-- Witness for C8: a failing repository in front of one healthy
repository yields the same map as the healthy repository alone. -/
theorem C8_repo_failure_witness :
    processAllRepositories "a@b.c" 0 3 ([] ++ none :: [some []]) =
      processAllRepositories "a@b.c" 0 3 ([] ++ [some []]) :=
  (C8_repo_failure "a@b.c" 0 3).2 [] [some []] (by decide)


/-- C7: throughout aggregation the commit map starts with exactly the
keys 1..183 all at 0, the sentinel 99999 never appears as a stored
key, every stored entry holds a non-negative count, and no entry is
ever removed (single aggregation steps preserve key presence). -/
theorem C7_map_invariants (email : String) (now weekday : Int) (repos : List Repo)
    (hw : 0 ≤ weekday) :
    (∀ i : Int, mapGet initCommits (some i) = if 1 ≤ i ∧ i ≤ 183 then some 0 else none) ∧
    mapGet initCommits none = none ∧
    (∀ p ∈ processAllRepositories email now weekday repos,
      ¬ p.1 = some OUT_OF_RANGE ∧ 0 ≤ p.2) ∧
    (repos ≠ [] → ∀ i : Int, 1 ≤ i → i ≤ 183 →
      ∃ v, mapGet (processAllRepositories email now weekday repos) (some i) = some v ∧
        0 ≤ v) ∧
    (∀ (m : CommitMap) (c : CommitEvent) (k : JSNum), (mapGet m k).isSome = true →
      (mapGet (processCommit email now (calcWeekOffset weekday) m c) k).isSome = true) := by
  have hoff : calcWeekOffset weekday ≤ 7 := by
    unfold calcWeekOffset DAYS_PER_WEEK
    omega
  refine ⟨mapGet_initCommits_some, mapGet_initCommits_none, ?_, ?_, ?_⟩
  · intro p hp
    unfold processAllRepositories at hp
    split at hp
    · exact absurd hp (List.not_mem_nil p)
    · refine foldl_preserves
        (fun m => ∀ p ∈ m, ¬ p.1 = some OUT_OF_RANGE ∧ 0 ≤ p.2)
        (fun m r => fillCommitsFromRepo email now weekday r m) ?_ repos initCommits ?_ p hp
      · intro m r hm
        cases r with
        | none => exact hm
        | some events =>
            refine foldl_preserves
              (fun m₂ => ∀ p ∈ m₂, ¬ p.1 = some OUT_OF_RANGE ∧ 0 ≤ p.2)
              (processCommit email now (calcWeekOffset weekday))
              ?_ events m hm
            intro m₁ c hm₁
            refine processCommit_preserves _ ?_ hm₁
            intro day hday
            rcases commitDay_bound hday with rfl | ⟨i, rfl, hi⟩
            · constructor
              · exact fun h => Option.noConfusion h
              · have : 0 ≤ (mapGet m₁ (none : JSNum)).getD 0 := by
                  cases hg : mapGet m₁ none with
                  | none => simp
                  | some v₁ =>
                      have := (hm₁ _ (mapGet_mem hg)).2
                      simpa using this
                omega
            · constructor
              · intro h
                injection h with h
                unfold OUT_OF_RANGE at h
                omega
              · have : 0 ≤ (mapGet m₁ (some i)).getD 0 := by
                  cases hg : mapGet m₁ (some i) with
                  | none => simp
                  | some v₁ =>
                      have := (hm₁ _ (mapGet_mem hg)).2
                      simpa using this
                omega
      · intro p hp
        rcases mem_initCommitsAux hp with ⟨j, h₁, h₂, rfl⟩ | hmem
        · refine ⟨?_, by simp⟩
          intro h
          injection h with h
          unfold OUT_OF_RANGE at h
          push_cast at h₂
          omega
        · exact absurd hmem (List.not_mem_nil p)
  · intro hne i h₁ h₂
    unfold processAllRepositories
    rw [if_neg hne, foldl_fillCommits_get]
    have hint : mapGet initCommits (some i) = some 0 := by
      rw [mapGet_initCommits_some, if_pos ⟨h₁, h₂⟩]
    split
    · exact ⟨0, hint, le_refl 0⟩
    · refine ⟨_, rfl, ?_⟩
      rw [hint]
      simp only [Option.getD_some]
      omega
  · intro m c k h
    exact processCommit_isSome email now (calcWeekOffset weekday) m c k h

/-- Witness for C7 at a concrete run: the entry for day 183 is present
and non-negative after aggregating one repository with an empty
history. -/
theorem C7_map_invariants_witness :
    ∃ v, mapGet (processAllRepositories "a@b.c" 0 3 [some []]) (some 183) = some v ∧
      0 ≤ v :=
  (C7_map_invariants "a@b.c" 0 3 [some []] (by decide)).2.2.2.1
    (by decide) 183 (by decide) (by decide)

/-- C9: aggregating any permutation of the repository list produces a
commit map with the same keys and the same counts — every lookup
agrees — so repository order never affects the final aggregated
result. -/
theorem C9_order_invariance (email : String) (now weekday : Int)
    (repos₁ repos₂ : List Repo) (hperm : repos₁.Perm repos₂) (k : JSNum) :
    mapGet (processAllRepositories email now weekday repos₁) k =
      mapGet (processAllRepositories email now weekday repos₂) k := by
  unfold processAllRepositories
  by_cases h₁ : repos₁ = []
  · subst h₁
    rw [if_pos rfl, if_pos (hperm.symm.eq_nil)]
  · have h₂ : repos₂ ≠ [] := fun he => h₁ ((he ▸ hperm).eq_nil)
    rw [if_neg h₁, if_neg h₂, foldl_fillCommits_get, foldl_fillCommits_get,
      (hperm.map (repoHits email now (calcWeekOffset weekday) k)).sum_eq]

set_option maxRecDepth 8000 in
/-- Witness for C9: swapping a failing repository and a healthy one
leaves the count of the commit day key unchanged. -/
theorem C9_order_invariance_witness :
    mapGet (processAllRepositories "a@b.c" 0 3 [some [⟨"a@b.c", some 0⟩], none]) (some 4) =
      mapGet (processAllRepositories "a@b.c" 0 3 [none, some [⟨"a@b.c", some 0⟩]]) (some 4) :=
  C9_order_invariance "a@b.c" 0 3 _ _ (List.Perm.swap none (some [⟨"a@b.c", some 0⟩]) []) (some 4)

/-- C1 (amended): a week-number appears in the built grid exactly when
the traversal reaches a key with day-in-week index 6 for that week —
it is never committed otherwise — for every key list and every commit
map. -/
theorem C1_week_membership (keys : List JSNum) (commits : CommitMap) (w : Int) :
    (∃ col, colsGet (buildColumns keys commits) w = some col) ↔
      ∃ k ∈ keys, commitsWeekAt k w :=
  buildColumns_week_exists keys commits w

set_option maxRecDepth 200000 in
/-- Counterexample to C1 as stated: the committed week columns are not
always sequences of exactly 7 counts.  Aggregating one repository with
an empty history initializes the map with keys 1..183; `buildColumns`
over its sorted keys commits week 0 after traversing only the keys
1..6, a column of 6 counts. -/
theorem C1_counterexample :
    colsGet (buildColumns (sortCommitKeys emptyLogRun) emptyLogRun) 0 =
      some [0, 0, 0, 0, 0, 0] ∧
    ¬ ([0, 0, 0, 0, 0, 0] : List Int).length = 7 := by
  exact ⟨by decide, by decide⟩

theorem tmod_neg_left (a b : Int) : (-a).tmod b = -(a.tmod b) := by
  have e1 := Int.tmod_add_tdiv a b
  have e2 := Int.tmod_add_tdiv (-a) b
  rw [Int.neg_tdiv, mul_neg] at e2
  linarith

theorem tmod_eq_six_nonneg {a : Int} (h : Int.tmod a 7 = 6) : 0 ≤ a := by
  by_contra hneg
  push_neg at hneg
  have h2 : (0 : Int) ≤ (-a).tmod 7 := Int.tmod_nonneg 7 (by omega)
  rw [tmod_neg_left] at h2
  omega

theorem mem_printGridWeekIndices {w : Int} (h0 : 0 ≤ w) (h27 : w ≤ 27) :
    w ∈ printGridWeekIndices := by
  have he : w = 27 - (((27 - w).toNat : Nat) : Int) := by omega
  rw [he, printGridWeekIndices]
  exact List.mem_map_of_mem (fun n : Nat => 27 - (n : Int))
    (List.mem_range.mpr (show (27 - w).toNat < 28 by omega))

theorem commitDay_bound_parse {email : String} {now offset : Int} {c : CommitEvent}
    {day : JSNum} (h : commitDay email now offset c = some day)
    (hc : ¬ c.date = none) :
    ∃ i : Int, day = some i ∧ i ≤ 183 + offset := by
  rcases commitDay_bound h with rfl | hi
  · unfold commitDay at h
    split at h
    · rename_i hcond
      injection h with h
      cases hd : c.date with
      | none => exact absurd hd hc
      | some t =>
          rw [hd] at h
          obtain ⟨dd, hdd⟩ : ∃ dd, countDaysSinceDate now (some t) = some dd := ⟨_, rfl⟩
          rw [hdd] at h
          exact absurd h.symm (by simp [jsAdd])
    · exact Option.noConfusion h
  · exact hi

theorem foldl_preserves_mem {α : Type} (P : CommitMap → Prop)
    (f : CommitMap → α → CommitMap) :
    ∀ l : List α, (∀ m, ∀ a ∈ l, P m → P (f m a)) → ∀ m, P m → P (l.foldl f m) := by
  intro l
  induction l with
  | nil =>
      intro _ m hm
      exact hm
  | cons a rest ih =>
      intro hf m hm
      exact ih (fun m₂ b hb hm₂ => hf m₂ b (List.mem_cons_of_mem a hb) hm₂)
        (f m a) (hf m a (List.mem_cons_self a rest) hm)

/-- C10 (amended): when every commit timestamp parses, every stored
key of the aggregated map is an integer of at most 190 (183 plus the
maximal week offset 7); and for every key list whose proper-number
keys are at most 190, every committed week-number lies between 0 and
27 and is visited by the renderer's fixed column iteration over week
indices 27 down to 0, so no aggregated week is silently omitted from
the printed grid. -/
theorem C10_week_bound (email : String) (now weekday : Int) (repos : List Repo)
    (hw : 0 ≤ weekday)
    (hparse : ∀ r ∈ repos, ∀ evs : List CommitEvent, r = some evs →
      ∀ c ∈ evs, ¬ c.date = none) :
    (∀ p ∈ processAllRepositories email now weekday repos,
      ∃ i : Int, p.1 = some i ∧ i ≤ 190) ∧
    (∀ (keys : List JSNum) (commits : CommitMap) (w : Int),
      (∀ k ∈ keys, ∀ i : Int, k = some i → i ≤ 190) →
      (∃ col, colsGet (buildColumns keys commits) w = some col) →
      0 ≤ w ∧ w ≤ 27 ∧ w ∈ printGridWeekIndices) := by
  have hoff : calcWeekOffset weekday ≤ 7 := by
    unfold calcWeekOffset DAYS_PER_WEEK
    omega
  constructor
  · intro p hp
    unfold processAllRepositories at hp
    split at hp
    · exact absurd hp (List.not_mem_nil p)
    · refine foldl_preserves_mem (fun m => ∀ p ∈ m, ∃ i : Int, p.1 = some i ∧ i ≤ 190)
        (fun m r => fillCommitsFromRepo email now weekday r m) repos ?_ initCommits
        ?_ p hp
      · intro m r hr hm
        cases r with
        | none => exact hm
        | some events =>
            refine foldl_preserves_mem (fun m₂ => ∀ p ∈ m₂, ∃ i : Int, p.1 = some i ∧ i ≤ 190)
              (processCommit email now (calcWeekOffset weekday)) events ?_ m hm
            intro m₁ c hc hm₁
            refine processCommit_preserves _ ?_ hm₁
            intro day hday
            obtain ⟨i, rfl, hi⟩ :=
              commitDay_bound_parse hday (hparse (some events) hr events rfl c hc)
            exact ⟨i, rfl, by omega⟩
      · intro q hq
        rcases mem_initCommitsAux hq with ⟨j, h₁, h₂, rfl⟩ | hmem
        · refine ⟨j, rfl, ?_⟩
          push_cast at h₂
          omega
        · exact absurd hmem (List.not_mem_nil q)
  · intro keys commits w hbound hex
    obtain ⟨k, hk, hcw⟩ := (buildColumns_week_exists keys commits w).mp hex
    cases k with
    | none =>
        exact absurd hcw.1 (by simp [jsRem])
    | some a =>
        rw [commitsWeekAt_some] at hcw
        obtain ⟨h6, hweek⟩ := hcw
        unfold DAYS_PER_WEEK at h6 hweek
        have ha0 : 0 ≤ a := tmod_eq_six_nonneg h6
        have ha190 : a ≤ 190 := hbound (some a) hk a rfl
        rw [Int.fdiv_eq_ediv a (by omega)] at hweek
        rw [Int.tmod_eq_emod ha0 (by omega)] at h6
        have hw0 : 0 ≤ w := by omega
        have hw27 : w ≤ 27 := by omega
        exact ⟨hw0, hw27, mem_printGridWeekIndices hw0 hw27⟩

/-- Witness for C10: with one healthy, empty-history repository and
the single key 6 the committed week-number 0 is within bounds and
visited by the renderer. -/
theorem C10_week_bound_witness :
    (0 : Int) ≤ 0 ∧ (0 : Int) ≤ 27 ∧ (0 : Int) ∈ printGridWeekIndices := by
  refine (C10_week_bound "a@b.c" 0 3 [some []] (by decide) ?_).2 [some 6] [] 0 ?_ ?_
  · rintro r hr evs hevs c hc
    rw [List.mem_singleton] at hr
    subst hr
    injection hevs with he
    subst he
    exact absurd hc (List.not_mem_nil c)
  · rintro k hk i hi
    rw [List.mem_singleton] at hk
    subst hk
    injection hi with hi
    omega
  · exact ⟨[0], by decide⟩

set_option maxRecDepth 200000 in
/-- Counterexample to C10 as stated: a matching commit with an
unparsable timestamp stores an entry under the `NaN` key, which is not
an integer key at most 190, so not every stored key of an
aggregator-produced map is at most 190. -/
theorem C10_counterexample :
    ((none : JSNum), (1 : Int)) ∈ nanEventRun ∧
    ¬ ∃ i : Int, ((none : JSNum), (1 : Int)).1 = some i ∧ i ≤ 190 := by
  constructor
  · decide
  · rintro ⟨i, hi, -⟩
    exact Option.noConfusion hi

set_option maxRecDepth 200000 in
/-- C2 (amended): aggregating a single matching commit dated today and
rendering, the cell at week-number 0, row `calcWeekOffset − 1` is
always rendered with the today flag and hence the distinct highlight
style, on every run weekday; its displayed value is 1 on weekdays 1..6
but 0 on Sunday (weekday 0, offset 7), because row index 6 falls
outside week 0's six-count column while the commit's key 7 lies in
week 1. -/
theorem C2_today_cell (weekday : Int) (h0 : 0 ≤ weekday) (h6 : weekday ≤ 6) :
    todayScenarioCell weekday = ⟨if weekday = 0 then 0 else 1, true⟩ ∧
    cellStyle ⟨if weekday = 0 then 0 else 1, true⟩ = CellStyle.todayHighlight ∧
    ¬ CellStyle.todayHighlight = CellStyle.lowBand := by
  refine ⟨?_, ?_, by decide⟩
  · interval_cases weekday <;> decide
  · simp [cellStyle, getContributionColor]

/-- Witness for C2 on a Wednesday run: the today cell holds the value
1 and carries the today highlight style. -/
theorem C2_today_cell_witness :
    todayScenarioCell 3 = ⟨1, true⟩ ∧
    cellStyle ⟨1, true⟩ = CellStyle.todayHighlight := by
  have h := C2_today_cell 3 (by decide) (by decide)
  have h1 := h.1
  have h2 := h.2.1
  norm_num at h1 h2
  exact ⟨h1, h2⟩

set_option maxRecDepth 200000 in
/-- Counterexample to C2 as stated: on a Sunday run (weekday 0) the
today cell of the same single-commit scenario displays 0, not 1 — the
claim promised the value 1 for every run date. -/
theorem C2_counterexample :
    todayScenarioCell 0 = ⟨0, true⟩ ∧ ¬ ((0 : Int) = 1) := by
  exact ⟨by decide, by decide⟩
